import Mathlib

/-!
Verification of the FASTA-to-AlphaFold-Server-JSON converter
(`fa2jsonserver.py`).  Strings are modelled as lists of characters
(`Str`), a text file as the list of its lines, Python exceptions as an
explicit error type threaded through `Except`.  Python's `str.strip`,
`str.upper`, `re.sub` and `re.search` (for the two fixed patterns used by
the program) are modelled character by character; Python whitespace is
modelled by its ASCII part, which is the only part exercised by the
program's inputs.
-/

/-- Strings as character lists. -/
abbrev Str := List Char

/-- ASCII whitespace, as recognised by Python's `str.strip` and `\s`. -/
def isPySpace (c : Char) : Bool :=
  c == ' ' || c == '\t' || c == '\n' || c == '\r' || c == '\x0b' || c == '\x0c'

/-- Drop leading and trailing characters satisfying `p` (Python `strip`). -/
def stripAround (p : Char → Bool) (l : Str) : Str :=
  ((l.dropWhile p).reverse.dropWhile p).reverse

/-- Python `str.strip()` with no argument: strip whitespace. -/
def pyStrip (l : Str) : Str := stripAround isPySpace l

/-- Python `str.upper()` on an ASCII character. -/
def pyUpper (c : Char) : Char :=
  if 97 ≤ c.toNat ∧ c.toNat ≤ 122 then Char.ofNat (c.toNat - 32) else c

/-- The 20 standard amino-acid letters (`AA20` in the source). -/
def AA20 : Str := ("ACDEFGHIKLMNPQRSTVWY".toList)

/-- The error conditions the program can raise (all are `ValueError` /
`FileNotFoundError` in the source; the payloads mirror what the messages
name: the offending path, the offending letters). -/
inductive Err where
  | parseError (path : Str)
  | emptySequence
  | invalidAlphabet (bad : Str)
  | noJobs
deriving DecidableEq, Repr

deriving instance DecidableEq for Except

/-- Insert a character into a sorted-without-duplicates list, keeping it
sorted and duplicate-free. -/
def insertChar (c : Char) : Str → Str
  | [] => [c]
  | d :: rest =>
    if c = d then d :: rest
    else if c < d then c :: d :: rest
    else d :: insertChar c rest

/-- Model of Python `sorted(set(l))` for a list of characters. -/
def sortedDedup (l : Str) : Str := l.foldr insertChar []

/-- Stage 1 of sequence cleanup (source line 58):
`seq.strip().upper().replace(" ", "").replace("\t", "")`. -/
def cleanStage1 (s : Str) : Str :=
  (((pyStrip s).map pyUpper).filter (fun c => decide (c ≠ ' '))).filter
    (fun c => decide (c ≠ '\t'))

/-- Stage 2 of sequence cleanup (source line 63): additionally
`.replace("\r", "").replace("\n", "")`. -/
def cleanSeq (s : Str) : Str :=
  ((cleanStage1 s).filter (fun c => decide (c ≠ '\r'))).filter
    (fun c => decide (c ≠ '\n'))

/-- Source `normalize_and_validate_sequence` (lines 57-73): clean the raw
sequence, fail on an empty result, and in strict mode fail when letters
outside the 20-letter alphabet remain, reporting them sorted and
deduplicated. -/
def normalize_and_validate_sequence (seq : Str) (strict_aa20 : Bool := true) :
    Except Err Str :=
  if cleanStage1 seq = [] then .error .emptySequence
  else if strict_aa20 then
    let bad := sortedDedup ((cleanSeq seq).filter (fun c => decide (c ∉ AA20)))
    if bad = [] then .ok (cleanSeq seq) else .error (.invalidAlphabet bad)
  else .ok (cleanSeq seq)

/-- Replace every maximal run of characters satisfying `p` by the single
character `r`; `inRun` records whether the previous character was in such
a run.  This is Python `re.sub(p+, r, _)` for a character class `p`. -/
def subRunsAux (p : Char → Bool) (r : Char) : Bool → Str → Str
  | _, [] => []
  | inRun, a :: rest =>
    if p a then
      if inRun then subRunsAux p r true rest
      else r :: subRunsAux p r true rest
    else a :: subRunsAux p r false rest

/-- Replace every maximal run of characters satisfying `p` by `r`. -/
def subRuns (p : Char → Bool) (r : Char) (l : Str) : Str :=
  subRunsAux p r false l

/-- Characters kept verbatim by the sanitizer: `[A-Za-z0-9_.-]`. -/
def isSafeChar (c : Char) : Bool :=
  ('A' ≤ c && c ≤ 'Z') || ('a' ≤ c && c ≤ 'z') || ('0' ≤ c && c ≤ '9') ||
    c == '_' || c == '.' || c == '-'

/-- Source `sanitize_job_name` (lines 76-85): strip, turn whitespace runs
and the punctuation `, ; : /` and any other unsafe characters into
underscores, collapse and strip underscores, fall back to `job`, truncate. -/
def sanitize_job_name (name : Str) (max_len : Nat := 120) : Str :=
  let n1 := pyStrip name
  let n2 := subRuns isPySpace '_' n1
  let n3 := ((((n2.map (fun c => if c = ',' then '_' else c)).map
    (fun c => if c = ';' then '_' else c)).map
    (fun c => if c = ':' then '_' else c)).map
    (fun c => if c = '/' then '_' else c))
  let n4 := subRuns (fun c => !(isSafeChar c)) '_' n3
  let n5 := stripAround (fun c => c == '_') (subRuns (fun c => c == '_') '_' n4)
  let n6 := if n5 = [] then ("job".toList) else n5
  n6.take max_len

/-- Characters matched by the regex class `[0-9.]`. -/
def isNumDot (c : Char) : Bool := c.isDigit || c == '.'

/-- Attempt to match the regex `key\s*=\s*(cls+)` at the start of the
given suffix (`key` a literal, `cls` a character class), returning the
captured greedy group. -/
def matchKeyAt (key : Str) (cls : Char → Bool) (l : Str) : Option Str :=
  if l.take key.length = key then
    match (l.drop key.length).dropWhile isPySpace with
    | d :: r2 =>
      if d = '=' then
        let num := (r2.dropWhile isPySpace).takeWhile cls
        if num = [] then none else some num
      else none
    | [] => none
  else none

/-- Attempt to match the regex `T\s*=\s*([0-9.]+)` at the start of the
given suffix, returning the captured group. -/
def matchTAt : Str → Option Str := matchKeyAt ("T".toList) isNumDot

/-- Attempt to match the regex `sample\s*=\s*([0-9]+)` at the start of the
given suffix, returning the captured group. -/
def matchSampleAt : Str → Option Str :=
  matchKeyAt ("sample".toList) Char.isDigit

/-- Python `re.search`: try the matcher at every position left to right. -/
def searchPat (m : Str → Option Str) : Str → Option Str
  | [] => none
  | c :: rest =>
    match m (c :: rest) with
    | some g => some g
    | none => searchPat m rest

/-- Source `derive_suffix_from_mpnn_header` (lines 88-101). -/
def derive_suffix_from_mpnn_header (header : Str) : Str :=
  match searchPat matchTAt header, searchPat matchSampleAt header with
  | some tg, some sg => ("T".toList) ++ tg ++ ("_sample".toList) ++ sg
  | _, some sg => ("sample".toList) ++ sg
  | _, _ => pyStrip (header.takeWhile (fun c => decide (c ≠ ',')))

/-- Loop of source `parse_fasta` (lines 36-50): `header` is the currently
open header, `seqAcc` the cleaned sequence lines accumulated for it. -/
def parseLoop (header : Option Str) (seqAcc : List Str) :
    List Str → List (Str × Str)
  | [] =>
    match header with
    | none => []
    | some h => [(h, seqAcc.flatten)]
  | raw :: rest =>
    let line := pyStrip raw
    if line = [] then parseLoop header seqAcc rest
    else if line.head? = some '>' then
      match header with
      | some h =>
        (h, seqAcc.flatten) :: parseLoop (some (pyStrip (line.drop 1))) [] rest
      | none => parseLoop (some (pyStrip (line.drop 1))) [] rest
    else
      parseLoop header
        (seqAcc ++ [(line.filter (fun c => decide (c ≠ ' '))).filter
          (fun c => decide (c ≠ '\t'))]) rest

/-- Source `parse_fasta` (lines 30-54), with the file given as its list of
lines and the path kept only for the error message. -/
def parse_fasta (path : Str) (lines : List Str) :
    Except Err (List (Str × Str)) :=
  let records := parseLoop none [] lines
  if records = [] then .error (.parseError path) else .ok records

/-- Python list slicing `l[:stop]` for a possibly negative `stop`. -/
def pySliceTo (l : List α) (stop : Int) : List α :=
  if 0 ≤ stop then l.take stop.toNat else l.take (l.length - (-stop).toNat)

/-- The record selection of source `build_jobs` (lines 117-121):
`records[1:]` under `skip_first`, then `selected[:max_jobs]`. -/
def selectRecords (records : List (Str × Str)) (skip_first : Bool)
    (max_jobs : Option Int) : List (Str × Str) :=
  let start_idx := if skip_first then 1 else 0
  let selected := records.drop start_idx
  match max_jobs with
  | some m => pySliceTo selected m
  | none => selected

/-- Python `f"{i:04d}"` for a natural number. -/
def pad4 (i : Nat) : Str :=
  let d := Nat.toDigits 10 i
  List.replicate (4 - d.length) '0' ++ d

/-- The `maxTemplateDate` field of a protein chain: included only when the
option value is truthy (source line 138 `if max_template_date:`), so a
supplied empty string is dropped. -/
def mtdField (max_template_date : Option Str) : Option Str :=
  match max_template_date with
  | some d => if d = [] then none else some d
  | none => none

/-- The `proteinChain` dictionary (source lines 134-141); `none` in an
optional field models absence of the key. -/
structure ProteinChain where
  sequence : Str
  count : Int
  maxTemplateDate : Option Str
  useStructureTemplate : Option Bool
deriving DecidableEq, Repr

/-- An element of the `sequences` list: `{"proteinChain": ...}`. -/
structure Entity where
  proteinChain : ProteinChain
deriving DecidableEq, Repr

/-- A job dictionary (source lines 143-149). -/
structure Job where
  name : Str
  modelSeeds : List Str
  sequences : List Entity
  dialect : Str
  version : Nat
deriving DecidableEq, Repr

/-- Per-record loop of source `build_jobs` (lines 123-150); `i` is the
1-based position within the selected records. -/
def buildLoop (i : Nat) (jobPrefix : Str) (count : Int)
    (max_template_date : Option Str) (use_structure_template : Option Bool)
    (seeds : List Str) (strict_aa20 : Bool) (name_mode : Str) :
    List (Str × Str) → Except Err (List Job)
  | [] => .ok []
  | (hdr, seq) :: rest =>
    match normalize_and_validate_sequence seq strict_aa20 with
    | .error e => .error e
    | .ok seq_norm =>
      let raw_name :=
        if name_mode = ("index".toList) then jobPrefix ++ '_' :: pad4 i
        else jobPrefix ++ '_' :: derive_suffix_from_mpnn_header hdr
      let job_name := sanitize_job_name raw_name
      let protein_chain : ProteinChain :=
        { sequence := seq_norm
          count := count
          maxTemplateDate := mtdField max_template_date
          useStructureTemplate := use_structure_template }
      match buildLoop (i + 1) jobPrefix count max_template_date
          use_structure_template seeds strict_aa20 name_mode rest with
      | .error e => .error e
      | .ok restJobs =>
        .ok ({ name := job_name
               modelSeeds := seeds
               sequences := [{ proteinChain := protein_chain }]
               dialect := ("alphafoldserver".toList)
               version := 1 } :: restJobs)

/-- A stripped line opening a FASTA record: it starts with a `>`. -/
def isHeaderS (l : Str) : Bool := l.head? = some '>'

/-- Header text of a header line: the text after the `>`, stripped. -/
def specHeaderText (l : Str) : Str := pyStrip (l.drop 1)

/-- Cleanup of one sequence line: interior spaces and tabs removed. -/
def specClean (l : Str) : Str :=
  (l.filter (fun c => decide (c ≠ ' '))).filter (fun c => decide (c ≠ '\t'))

/-- Concatenation of cleaned sequence lines. -/
def specJoin (ls : List Str) : Str := (ls.map specClean).flatten

/-- The stripped non-blank lines of a file, in order. -/
def strippedLines (lines : List Str) : List Str :=
  (lines.map pyStrip).filter (fun l => decide (l ≠ []))

/-- Record list as the specification describes it, over stripped non-blank
lines: one record per header line, paired with the concatenation of the
cleaned sequence lines up to the next header. -/
def specRecords : List Str → List (Str × Str)
  | [] => []
  | l :: rest =>
    if isHeaderS l then
      (specHeaderText l,
        specJoin (rest.takeWhile (fun x => !(isHeaderS x)))) :: specRecords rest
    else specRecords rest

/-- Every character of the list satisfies `p`. -/
abbrev allOf (p : Char → Bool) (l : Str) : Prop := ∀ c ∈ l, p c = true

/-- The header contains a temperature marker: a literal `T`, optional
whitespace, `=`, optional whitespace, then one or more `[0-9.]`
characters. -/
def hasTMarker (header : Str) : Prop :=
  ∃ pre w1 w2 num post, allOf isPySpace w1 ∧ allOf isPySpace w2 ∧
    num ≠ [] ∧ allOf isNumDot num ∧
    header = pre ++ 'T' :: (w1 ++ '=' :: (w2 ++ (num ++ post)))

/-- The header contains a sample marker: the literal `sample`, optional
whitespace, `=`, optional whitespace, then one or more digits. -/
def hasSampleMarker (header : Str) : Prop :=
  ∃ pre w1 w2 num post, allOf isPySpace w1 ∧ allOf isPySpace w2 ∧
    num ≠ [] ∧ allOf Char.isDigit num ∧
    header = pre ++ (("sample".toList) ++ (w1 ++ '=' :: (w2 ++ (num ++ post))))

/-- Source `build_jobs` (lines 104-154). -/
def build_jobs (records : List (Str × Str)) (jobPrefix : Str)
    (skip_first : Bool) (max_jobs : Option Int) (count : Int)
    (max_template_date : Option Str) (use_structure_template : Option Bool)
    (seeds : List Str) (strict_aa20 : Bool) (name_mode : Str) :
    Except Err (List Job) :=
  let selected := selectRecords records skip_first max_jobs
  match buildLoop 1 jobPrefix count max_template_date use_structure_template
      seeds strict_aa20 name_mode selected with
  | .error e => .error e
  | .ok jobs => if jobs = [] then .error .noJobs else .ok jobs

/-! ### General list helpers -/

theorem dropWhile_eq_self_of_all {α : Type} {p : α → Bool} {l : List α}
    (h : ∀ c ∈ l, p c = false) : l.dropWhile p = l := by
  cases l with
  | nil => rfl
  | cons a t =>
    have ha := h a (List.mem_cons_self a t)
    simp [List.dropWhile_cons, ha]

theorem mem_of_mem_dropWhile {α : Type} {p : α → Bool} {l : List α} {c : α}
    (h : c ∈ l.dropWhile p) : c ∈ l := by
  induction l with
  | nil => simp [List.dropWhile] at h
  | cons a t ih =>
    rw [List.dropWhile_cons] at h
    split at h
    · exact List.mem_cons_of_mem _ (ih h)
    · exact h

theorem mem_of_mem_stripAround {p : Char → Bool} {l : Str} {c : Char}
    (h : c ∈ stripAround p l) : c ∈ l := by
  unfold stripAround at h
  rw [List.mem_reverse] at h
  have h2 := mem_of_mem_dropWhile h
  rw [List.mem_reverse] at h2
  exact mem_of_mem_dropWhile h2

theorem map_eq_self_of {α : Type} {f : α → α} {l : List α}
    (h : ∀ c ∈ l, f c = c) : l.map f = l := by
  induction l with
  | nil => rfl
  | cons a t ih => simp_all

theorem mem_subRunsAux {p : Char → Bool} {r : Char} {b : Bool} {l : Str}
    {c : Char} (h : c ∈ subRunsAux p r b l) :
    c = r ∨ (c ∈ l ∧ p c = false) := by
  induction l generalizing b with
  | nil => simp [subRunsAux] at h
  | cons a t ih =>
    simp only [subRunsAux] at h
    by_cases hpa : p a
    · rw [if_pos hpa] at h
      rcases hb : b with _ | _
      · rw [hb, if_neg (by simp)] at h
        rcases List.mem_cons.mp h with rfl | h2
        · exact Or.inl rfl
        · rcases ih h2 with h3 | ⟨h4, h5⟩
          · exact Or.inl h3
          · exact Or.inr ⟨List.mem_cons_of_mem _ h4, h5⟩
      · rw [hb, if_pos rfl] at h
        rcases ih h with h3 | ⟨h4, h5⟩
        · exact Or.inl h3
        · exact Or.inr ⟨List.mem_cons_of_mem _ h4, h5⟩
    · rw [if_neg hpa] at h
      rcases List.mem_cons.mp h with rfl | h2
      · exact Or.inr ⟨List.mem_cons_self _ _, Bool.eq_false_iff.mpr hpa⟩
      · rcases ih h2 with h3 | ⟨h4, h5⟩
        · exact Or.inl h3
        · exact Or.inr ⟨List.mem_cons_of_mem _ h4, h5⟩

theorem mem_subRuns {p : Char → Bool} {r : Char} {l : Str} {c : Char}
    (h : c ∈ subRuns p r l) : c = r ∨ (c ∈ l ∧ p c = false) :=
  mem_subRunsAux h

/-! ### `sortedDedup` -/

theorem insertChar_ne_nil {c : Char} {l : Str} : insertChar c l ≠ [] := by
  cases l with
  | nil => simp [insertChar]
  | cons d t =>
    simp only [insertChar]
    split
    · simp
    · split <;> simp

theorem mem_insertChar {a c : Char} {l : Str} :
    a ∈ insertChar c l ↔ a = c ∨ a ∈ l := by
  induction l with
  | nil => simp [insertChar]
  | cons d t ih =>
    simp only [insertChar]
    split
    · rename_i hcd
      subst hcd
      simp only [List.mem_cons]
      tauto
    · split
      · simp [List.mem_cons]
      · simp only [List.mem_cons, ih]
        tauto

theorem sortedDedup_cons {c : Char} {l : Str} :
    sortedDedup (c :: l) = insertChar c (sortedDedup l) := rfl

theorem mem_sortedDedup {a : Char} {l : Str} :
    a ∈ sortedDedup l ↔ a ∈ l := by
  induction l with
  | nil => simp [sortedDedup]
  | cons c t ih => simp [sortedDedup_cons, mem_insertChar, ih]

theorem sortedDedup_ne_nil {l : Str} (h : l ≠ []) : sortedDedup l ≠ [] := by
  cases l with
  | nil => exact absurd rfl h
  | cons c t => exact insertChar_ne_nil

theorem insertChar_pairwise {c : Char} {l : Str}
    (h : List.Pairwise (fun a b => a < b) l) :
    List.Pairwise (fun a b => a < b) (insertChar c l) := by
  induction l with
  | nil => simp [insertChar]
  | cons d t ih =>
    rw [List.pairwise_cons] at h
    obtain ⟨hd, ht⟩ := h
    simp only [insertChar]
    split
    · exact List.pairwise_cons.mpr ⟨hd, ht⟩
    · split
      · rename_i hne hlt
        refine List.pairwise_cons.mpr ⟨?_, List.pairwise_cons.mpr ⟨hd, ht⟩⟩
        intro x hx
        rcases List.mem_cons.mp hx with rfl | hx2
        · exact hlt
        · exact lt_trans hlt (hd x hx2)
      · rename_i hne hnlt
        have hdc : d < c := by
          rcases lt_trichotomy c d with h3 | h3 | h3
          · exact absurd h3 hnlt
          · exact absurd h3 hne
          · exact h3
        refine List.pairwise_cons.mpr ⟨?_, ih ht⟩
        intro x hx
        rcases mem_insertChar.mp hx with rfl | hx2
        · exact hdc
        · exact hd x hx2

theorem sortedDedup_pairwise {l : Str} :
    List.Pairwise (fun a b => a < b) (sortedDedup l) := by
  induction l with
  | nil => simp [sortedDedup]
  | cons c t ih => exact insertChar_pairwise ih

/-! ### Sanitizer consequences -/

theorem safe_after_subRuns {l : Str} {c : Char}
    (h : c ∈ subRuns (fun c => !(isSafeChar c)) '_' l) : isSafeChar c = true := by
  rcases mem_subRuns h with rfl | ⟨_, hp⟩
  · decide
  · simpa using hp

theorem safe_after_collapse {m : Str} {c : Char}
    (hm : ∀ c ∈ m, isSafeChar c = true)
    (h : c ∈ subRuns (fun c => c == '_') '_' m) : isSafeChar c = true := by
  rcases mem_subRuns h with rfl | ⟨h2, _⟩
  · decide
  · exact hm c h2

/-- C3: every sanitized job name is non-empty, at most 120 characters
long, and uses only characters in the class `[A-Za-z0-9_.-]`; and the
raw name `run 1: alpha/beta` sanitizes to `run_1_alpha_beta`. -/
theorem C3_sanitize_job_name_safe :
    (∀ name : Str, sanitize_job_name name ≠ [] ∧
      (sanitize_job_name name).length ≤ 120 ∧
      ∀ c ∈ sanitize_job_name name, isSafeChar c = true) ∧
    sanitize_job_name ("run 1: alpha/beta".toList) = ("run_1_alpha_beta".toList) := by
  constructor
  · intro name
    refine ⟨?_, ?_, ?_⟩
    · unfold sanitize_job_name
      intro h
      rw [List.take_eq_nil_iff] at h
      rcases h with h | h
      · exact absurd h (by decide)
      · split at h
        · exact absurd h (by decide)
        · rename_i hcond
          exact hcond h
    · unfold sanitize_job_name
      rw [List.length_take]
      exact Nat.min_le_left _ _
    · intro c hc
      unfold sanitize_job_name at hc
      have hc2 := List.take_subset _ _ hc
      split at hc2
      · have : c ∈ [ 'j', 'o', 'b'] := hc2
        rcases List.mem_cons.mp this with rfl | h2
        · decide
        · rcases List.mem_cons.mp h2 with rfl | h3
          · decide
          · rcases List.mem_cons.mp h3 with rfl | h4
            · decide
            · simp at h4
      · have hc3 := mem_of_mem_stripAround hc2
        exact safe_after_collapse (fun d hd => safe_after_subRuns hd) hc3
  · decide

/-! ### Sequence normalization -/

theorem cleanSeq_subset {s : Str} {c : Char} (h : c ∈ cleanSeq s) :
    c ∈ cleanStage1 s := by
  unfold cleanSeq at h
  exact List.mem_filter.mp (List.mem_filter.mp h).1 |>.1

/-- C5: when the cleaned, upper-cased sequence still contains characters
outside the 20-letter alphabet, strict normalization fails with an
`invalidAlphabet` error carrying exactly those characters, sorted and
without duplicates, while non-strict normalization succeeds and returns
the cleaned sequence unchanged. -/
theorem C5_invalid_alphabet (seq : Str)
    (h : ∃ c ∈ cleanSeq seq, c ∉ AA20) :
    (∃ bad, normalize_and_validate_sequence seq true = .error (.invalidAlphabet bad) ∧
      List.Pairwise (fun a b => a < b) bad ∧
      ∀ c, (c ∈ bad ↔ c ∈ cleanSeq seq ∧ c ∉ AA20)) ∧
    normalize_and_validate_sequence seq false = .ok (cleanSeq seq) := by
  obtain ⟨c0, hc0mem, hc0⟩ := h
  have hstage1 : cleanStage1 seq ≠ [] :=
    List.ne_nil_of_mem (cleanSeq_subset hc0mem)
  have hbadmem : c0 ∈ (cleanSeq seq).filter (fun c => decide (c ∉ AA20)) := by
    rw [List.mem_filter]
    exact ⟨hc0mem, by simpa using hc0⟩
  have hsdne : sortedDedup ((cleanSeq seq).filter (fun c => decide (c ∉ AA20))) ≠ [] :=
    sortedDedup_ne_nil (List.ne_nil_of_mem hbadmem)
  constructor
  · refine ⟨sortedDedup ((cleanSeq seq).filter (fun c => decide (c ∉ AA20))), ?_, ?_, ?_⟩
    · unfold normalize_and_validate_sequence
      rw [if_neg hstage1, if_pos rfl]
      exact if_neg hsdne
    · exact sortedDedup_pairwise
    · intro c
      rw [mem_sortedDedup, List.mem_filter]
      simp
  · unfold normalize_and_validate_sequence
    rw [if_neg hstage1]
    rfl

/-- C5 witness at a concrete input: a sequence containing `X` and `*`
fails strictly with the sorted offending letters, and succeeds
non-strictly. -/
theorem C5_invalid_alphabet_witness :
    normalize_and_validate_sequence ("AXA*".toList) true =
      .error (.invalidAlphabet ("*X".toList)) ∧
    normalize_and_validate_sequence ("AXA*".toList) false = .ok ("AXA*".toList) := by
  constructor
  · decide
  · have h := (C5_invalid_alphabet ("AXA*".toList)
      ⟨'X', by decide, by decide⟩).2
    rw [h]
    decide

/-! ### `build_jobs` structure -/

theorem build_jobs_ok_elim {records jobPrefix skip_first max_jobs count
    max_template_date use_structure_template seeds strict_aa20 name_mode jobs}
    (h : build_jobs records jobPrefix skip_first max_jobs count
      max_template_date use_structure_template seeds strict_aa20 name_mode =
      .ok jobs) :
    buildLoop 1 jobPrefix count max_template_date use_structure_template seeds
      strict_aa20 name_mode (selectRecords records skip_first max_jobs) =
      .ok jobs := by
  simp only [build_jobs] at h
  cases hb : buildLoop 1 jobPrefix count max_template_date
      use_structure_template seeds strict_aa20 name_mode
      (selectRecords records skip_first max_jobs) with
  | error e => rw [hb] at h; simp at h
  | ok js =>
    rw [hb] at h
    have h2 : (if js = [] then Except.error Err.noJobs else Except.ok js) =
        Except.ok jobs := h
    by_cases hjs : js = []
    · rw [if_pos hjs] at h2
      exact absurd h2 (by simp)
    · rw [if_neg hjs] at h2
      exact h2

theorem buildLoop_length {i : Nat} {jobPrefix : Str} {count : Int}
    {max_template_date : Option Str} {use_structure_template : Option Bool}
    {seeds : List Str} {strict_aa20 : Bool} {name_mode : Str}
    {l : List (Str × Str)} {jobs : List Job}
    (h : buildLoop i jobPrefix count max_template_date use_structure_template
      seeds strict_aa20 name_mode l = .ok jobs) :
    jobs.length = l.length := by
  induction l generalizing i jobs with
  | nil =>
    simp only [buildLoop] at h
    simp [← Except.ok.inj h]
  | cons rec rest ih =>
    obtain ⟨hdr, seq⟩ := rec
    simp only [buildLoop] at h
    cases hn : normalize_and_validate_sequence seq strict_aa20 with
    | error e => rw [hn] at h; simp at h
    | ok sn =>
      rw [hn] at h
      cases hr : buildLoop (i + 1) jobPrefix count max_template_date
          use_structure_template seeds strict_aa20 name_mode rest with
      | error e => rw [hr] at h; simp at h
      | ok js =>
        rw [hr] at h
        simp only at h
        rw [← Except.ok.inj h]
        simp [ih hr]

theorem buildLoop_fields {i : Nat} {jobPrefix : Str} {count : Int}
    {max_template_date : Option Str} {use_structure_template : Option Bool}
    {seeds : List Str} {strict_aa20 : Bool} {name_mode : Str}
    {l : List (Str × Str)} {jobs : List Job}
    (h : buildLoop i jobPrefix count max_template_date use_structure_template
      seeds strict_aa20 name_mode l = .ok jobs) :
    ∀ j ∈ jobs, ∀ e ∈ j.sequences,
      e.proteinChain.count = count ∧
      e.proteinChain.maxTemplateDate = mtdField max_template_date ∧
      e.proteinChain.useStructureTemplate = use_structure_template := by
  induction l generalizing i jobs with
  | nil =>
    simp only [buildLoop] at h
    rw [← Except.ok.inj h]
    simp
  | cons rec rest ih =>
    obtain ⟨hdr, seq⟩ := rec
    simp only [buildLoop] at h
    cases hn : normalize_and_validate_sequence seq strict_aa20 with
    | error e => rw [hn] at h; simp at h
    | ok sn =>
      rw [hn] at h
      cases hr : buildLoop (i + 1) jobPrefix count max_template_date
          use_structure_template seeds strict_aa20 name_mode rest with
      | error e => rw [hr] at h; simp at h
      | ok js =>
        rw [hr] at h
        simp only at h
        rw [← Except.ok.inj h]
        intro j hj e he
        rcases List.mem_cons.mp hj with rfl | hj2
        · rcases List.mem_cons.mp he with rfl | he2
          · exact ⟨rfl, rfl, rfl⟩
          · simp at he2
        · exact ih hr j hj2 e he

/-- C6 (amended): every protein chain in a produced job list carries the
supplied count verbatim (any integer is accepted, so `count ≥ 1` is not
guaranteed), its `maxTemplateDate` field is present only when a non-empty
date was supplied, and its `useStructureTemplate` field equals the
supplied tri-state option exactly. -/
theorem C6_protein_chain_fields (records : List (Str × Str)) (jobPrefix : Str)
    (skip_first : Bool) (max_jobs : Option Int) (count : Int)
    (max_template_date : Option Str) (use_structure_template : Option Bool)
    (seeds : List Str) (strict_aa20 : Bool) (name_mode : Str)
    (jobs : List Job)
    (h : build_jobs records jobPrefix skip_first max_jobs count
      max_template_date use_structure_template seeds strict_aa20 name_mode =
      .ok jobs) :
    ∀ j ∈ jobs, ∀ e ∈ j.sequences,
      e.proteinChain.count = count ∧
      (∀ d, e.proteinChain.maxTemplateDate = some d →
        max_template_date = some d ∧ d ≠ []) ∧
      e.proteinChain.useStructureTemplate = use_structure_template := by
  intro j hj e he
  obtain ⟨h1, h2, h3⟩ := buildLoop_fields (build_jobs_ok_elim h) j hj e he
  refine ⟨h1, ?_, h3⟩
  intro d hd
  rw [h2] at hd
  unfold mtdField at hd
  cases max_template_date with
  | none => simp at hd
  | some d2 =>
    simp only at hd
    split at hd
    · simp at hd
    · rename_i hne
      exact ⟨congrArg some (Option.some.inj hd).symm ▸ rfl, by
        rw [← Option.some.inj hd]; exact hne⟩

/-- C6 counterexample to the claim as stated: the run accepts `--count 0`
(no validation anywhere), and the produced protein chain then carries
`count = 0 < 1`. -/
theorem C6_count_zero_counterexample :
    build_jobs [(("h".toList), ("ACD".toList))] ("p".toList) false none 0
      none none [] true ("index".toList) =
    .ok [⟨("p_0001".toList), [], [⟨⟨("ACD".toList), 0, none, none⟩⟩],
      ("alphafoldserver".toList), 1⟩] ∧
    ¬ (1 ≤ (0 : Int)) := by
  constructor
  · decide
  · decide

/-- C6 witness at a concrete input, with the amended field properties
instantiated on the produced job. -/
theorem C6_protein_chain_fields_witness :
    build_jobs [(("h".toList), ("ACD".toList))] ("p".toList) false none 5
      (some ("2024-01-01".toList)) (some false) [] true ("index".toList) =
    .ok [⟨("p_0001".toList), [],
      [⟨⟨("ACD".toList), 5, some ("2024-01-01".toList), some false⟩⟩],
      ("alphafoldserver".toList), 1⟩] ∧
    ((⟨("ACD".toList), 5, some ("2024-01-01".toList), some false⟩ :
        ProteinChain).count = 5 ∧
      (∀ d, (⟨("ACD".toList), 5, some ("2024-01-01".toList), some false⟩ :
          ProteinChain).maxTemplateDate = some d →
        some ("2024-01-01".toList) = some d ∧ d ≠ []) ∧
      (⟨("ACD".toList), 5, some ("2024-01-01".toList), some false⟩ :
        ProteinChain).useStructureTemplate = some false) := by
  constructor
  · decide
  · exact C6_protein_chain_fields
      [(("h".toList), ("ACD".toList))] ("p".toList) false none 5
      (some ("2024-01-01".toList)) (some false) [] true ("index".toList)
      [⟨("p_0001".toList), [],
        [⟨⟨("ACD".toList), 5, some ("2024-01-01".toList), some false⟩⟩],
        ("alphafoldserver".toList), 1⟩]
      (by decide)
      ⟨("p_0001".toList), [],
        [⟨⟨("ACD".toList), 5, some ("2024-01-01".toList), some false⟩⟩],
        ("alphafoldserver".toList), 1⟩
      (by decide)
      ⟨⟨("ACD".toList), 5, some ("2024-01-01".toList), some false⟩⟩
      (by decide)

/-- C10: when `--max-template-date` is supplied with the empty string, the
`maxTemplateDate` field is omitted from every produced protein chain,
because inclusion is decided by truthiness of the value. -/
theorem C10_empty_template_date_omitted (records : List (Str × Str))
    (jobPrefix : Str) (skip_first : Bool) (max_jobs : Option Int)
    (count : Int) (use_structure_template : Option Bool) (seeds : List Str)
    (strict_aa20 : Bool) (name_mode : Str) (jobs : List Job)
    (h : build_jobs records jobPrefix skip_first max_jobs count (some [])
      use_structure_template seeds strict_aa20 name_mode = .ok jobs) :
    ∀ j ∈ jobs, ∀ e ∈ j.sequences, e.proteinChain.maxTemplateDate = none := by
  intro j hj e he
  have h2 := (buildLoop_fields (build_jobs_ok_elim h) j hj e he).2.1
  rw [h2]
  rfl

/-- C10 witness at a concrete input: supplying the empty string as the
template date produces a chain without the field. -/
theorem C10_empty_template_date_witness :
    build_jobs [(("h".toList), ("ACD".toList))] ("p".toList) false none 1
      (some []) none [] true ("index".toList) =
    .ok [⟨("p_0001".toList), [], [⟨⟨("ACD".toList), 1, none, none⟩⟩],
      ("alphafoldserver".toList), 1⟩] ∧
    (⟨("ACD".toList), 1, none, none⟩ : ProteinChain).maxTemplateDate = none := by
  constructor
  · decide
  · exact C10_empty_template_date_omitted
      [(("h".toList), ("ACD".toList))] ("p".toList) false none 1 none [] true
      ("index".toList)
      [⟨("p_0001".toList), [], [⟨⟨("ACD".toList), 1, none, none⟩⟩],
        ("alphafoldserver".toList), 1⟩]
      (by decide)
      ⟨("p_0001".toList), [], [⟨⟨("ACD".toList), 1, none, none⟩⟩],
        ("alphafoldserver".toList), 1⟩
      (by decide)
      ⟨⟨("ACD".toList), 1, none, none⟩⟩
      (by decide)

/-! ### Record selection (C4) -/

/-- C4 (amended): for a non-negative `max_jobs` (when set) the selection
is exactly drop-then-take as the specification says, a successful run has
one job per selected record, hence length `min maxJobs available`, and an
empty selection fails with `noJobs`.  (A negative `max_jobs` is also
accepted by the CLI and follows Python slice semantics instead, dropping
records from the end; see the counterexample.) -/
theorem C4_selection (records : List (Str × Str)) (jobPrefix : Str)
    (skip_first : Bool) (max_jobs : Option Int) (count : Int)
    (max_template_date : Option Str) (use_structure_template : Option Bool)
    (seeds : List Str) (strict_aa20 : Bool) (name_mode : Str)
    (hmj : ∀ m, max_jobs = some m → 0 ≤ m) :
    (selectRecords records skip_first max_jobs =
      (records.drop (if skip_first then 1 else 0)).take
        (match max_jobs with
         | some m => m.toNat
         | none => (records.drop (if skip_first then 1 else 0)).length)) ∧
    (∀ jobs, build_jobs records jobPrefix skip_first max_jobs count
        max_template_date use_structure_template seeds strict_aa20 name_mode =
        .ok jobs →
      jobs.length =
        min (match max_jobs with
             | some m => m.toNat
             | none => (records.drop (if skip_first then 1 else 0)).length)
          (records.drop (if skip_first then 1 else 0)).length) ∧
    (selectRecords records skip_first max_jobs = [] →
      build_jobs records jobPrefix skip_first max_jobs count
        max_template_date use_structure_template seeds strict_aa20 name_mode =
        .error Err.noJobs) := by
  have hsel : selectRecords records skip_first max_jobs =
      (records.drop (if skip_first then 1 else 0)).take
        (match max_jobs with
         | some m => m.toNat
         | none => (records.drop (if skip_first then 1 else 0)).length) := by
    unfold selectRecords
    cases max_jobs with
    | none => simp
    | some m =>
      have h0 := hmj m rfl
      simp only [pySliceTo, if_pos h0]
  refine ⟨hsel, ?_, ?_⟩
  · intro jobs h
    have hlen := buildLoop_length (build_jobs_ok_elim h)
    rw [hsel] at hlen
    rw [hlen, List.length_take]
  · intro hempty
    unfold build_jobs
    rw [hempty]
    rfl

/-- C4 witness at a concrete input: three records, skip-first on and
`max_jobs = 5`, produce `min 5 2 = 2` jobs. -/
theorem C4_selection_witness :
    build_jobs [(("a".toList), ("AC".toList)), (("b".toList), ("DE".toList)),
      (("c".toList), ("FG".toList))] ("p".toList) true (some 5) 1 none none []
      true ("index".toList) =
    .ok [⟨("p_0001".toList), [], [⟨⟨("DE".toList), 1, none, none⟩⟩],
        ("alphafoldserver".toList), 1⟩,
      ⟨("p_0002".toList), [], [⟨⟨("FG".toList), 1, none, none⟩⟩],
        ("alphafoldserver".toList), 1⟩] ∧
    ([⟨("p_0001".toList), [], [⟨⟨("DE".toList), 1, none, none⟩⟩],
        ("alphafoldserver".toList), 1⟩,
      ⟨("p_0002".toList), [], [⟨⟨("FG".toList), 1, none, none⟩⟩],
        ("alphafoldserver".toList), 1⟩] : List Job).length =
      min (Int.toNat 5)
        (([(("a".toList), ("AC".toList)), (("b".toList), ("DE".toList)),
          (("c".toList), ("FG".toList))].drop
            (if true then 1 else 0)).length) := by
  constructor
  · decide
  · exact (C4_selection [(("a".toList), ("AC".toList)),
      (("b".toList), ("DE".toList)), (("c".toList), ("FG".toList))]
      ("p".toList) true (some 5) 1 none none [] true ("index".toList)
      (by intro m hm; cases Option.some.inj hm; decide)).2.1 _ (by decide)

/-- C4 counterexample to the claim as stated: with the accepted setting
`max_jobs = -1` (and two records, no skip) the program emits 1 job, the
Python slice `records[:-1]`, not `min (-1) 2` of anything: the length law
`|jobs| = min maxJobs available` fails for negative `max_jobs`. -/
theorem C4_negative_max_jobs_counterexample :
    build_jobs [(("a".toList), ("AC".toList)), (("b".toList), ("DE".toList))]
      ("p".toList) false (some (-1)) 1 none none [] true ("index".toList) =
    .ok [⟨("p_0001".toList), [], [⟨⟨("AC".toList), 1, none, none⟩⟩],
      ("alphafoldserver".toList), 1⟩] ∧
    ¬ ((1 : Int) = min (-1 : Int) 2) := by
  constructor
  · decide
  · decide

/-! ### Normalization of valid sequences -/

theorem normalize_valid {s : Str} (hne : s ≠ [])
    (haa : ∀ c ∈ s, c ∈ AA20) :
    normalize_and_validate_sequence s true = .ok s := by
  have hfacts : ∀ c ∈ AA20, isPySpace c = false ∧ pyUpper c = c ∧
      (decide (c ≠ ' ') = true ∧ decide (c ≠ '\t') = true ∧
        decide (c ≠ '\r') = true ∧ decide (c ≠ '\n') = true) := by decide
  have hstrip : pyStrip s = s := by
    unfold pyStrip stripAround
    rw [dropWhile_eq_self_of_all (fun c hc => (hfacts c (haa c hc)).1)]
    rw [dropWhile_eq_self_of_all
      (fun c hc => (hfacts c (haa c (List.mem_reverse.mp hc))).1)]
    exact List.reverse_reverse s
  have hmap : s.map pyUpper = s :=
    map_eq_self_of (fun c hc => (hfacts c (haa c hc)).2.1)
  have hf1 : s.filter (fun c => decide (c ≠ ' ')) = s :=
    List.filter_eq_self.mpr (fun c hc => (hfacts c (haa c hc)).2.2.1)
  have hf2 : s.filter (fun c => decide (c ≠ '\t')) = s :=
    List.filter_eq_self.mpr (fun c hc => (hfacts c (haa c hc)).2.2.2.1)
  have hf3 : s.filter (fun c => decide (c ≠ '\r')) = s :=
    List.filter_eq_self.mpr (fun c hc => (hfacts c (haa c hc)).2.2.2.2.1)
  have hf4 : s.filter (fun c => decide (c ≠ '\n')) = s :=
    List.filter_eq_self.mpr (fun c hc => (hfacts c (haa c hc)).2.2.2.2.2)
  have hstage1 : cleanStage1 s = s := by
    unfold cleanStage1
    rw [hstrip, hmap, hf1, hf2]
  have hclean : cleanSeq s = s := by
    unfold cleanSeq
    rw [hstage1, hf3, hf4]
  have hbad : (cleanSeq s).filter (fun c => decide (c ∉ AA20)) = [] := by
    rw [hclean, List.filter_eq_nil_iff]
    intro c hc
    simp [haa c hc]
  unfold normalize_and_validate_sequence
  rw [hstage1, if_neg hne, if_pos rfl]
  simp only [hbad]
  rw [hclean]
  rfl

/-- C1: on a three-record input with headers `native`, `T=0.1, sample=1`,
`T=0.1, sample=2` and valid 20-letter sequences, running with skip-first,
header naming and job prefix `design` (all else default) yields exactly
two jobs, in input order, named `design_T0.1_sample1` and
`design_T0.1_sample2`, each with empty `modelSeeds`, a single protein
chain with `count = 1` and no optional fields, dialect `alphafoldserver`
and version 1. -/
theorem C1_end_to_end (s1 s2 s3 : Str)
    (_h1 : s1 ≠ [] ∧ ∀ c ∈ s1, c ∈ AA20)
    (h2 : s2 ≠ [] ∧ ∀ c ∈ s2, c ∈ AA20)
    (h3 : s3 ≠ [] ∧ ∀ c ∈ s3, c ∈ AA20) :
    build_jobs [(("native".toList), s1), (("T=0.1, sample=1".toList), s2),
      (("T=0.1, sample=2".toList), s3)] ("design".toList) true none 1 none
      none [] true ("header".toList) =
    .ok [⟨("design_T0.1_sample1".toList), [], [⟨⟨s2, 1, none, none⟩⟩],
        ("alphafoldserver".toList), 1⟩,
      ⟨("design_T0.1_sample2".toList), [], [⟨⟨s3, 1, none, none⟩⟩],
        ("alphafoldserver".toList), 1⟩] := by
  have n2 := normalize_valid h2.1 h2.2
  have n3 := normalize_valid h3.1 h3.2
  simp only [build_jobs, selectRecords, List.drop_succ_cons, List.drop_zero,
    buildLoop, n2, n3]
  rfl

/-- C1 witness at concrete valid 20-letter sequences. -/
theorem C1_end_to_end_witness :
    ((("ACDEFGHIKLMNPQRSTVWY".toList) ≠ ([] : Str)) ∧
      ∀ c ∈ ("ACDEFGHIKLMNPQRSTVWY".toList), c ∈ AA20) ∧
    build_jobs [(("native".toList), ("ACDEFGHIKLMNPQRSTVWY".toList)),
      (("T=0.1, sample=1".toList), ("ACDEFGHIKLMNPQRSTVWY".toList)),
      (("T=0.1, sample=2".toList), ("ACDEFGHIKLMNPQRSTVWY".toList))]
      ("design".toList) true none 1 none none [] true ("header".toList) =
    .ok [⟨("design_T0.1_sample1".toList), [],
        [⟨⟨("ACDEFGHIKLMNPQRSTVWY".toList), 1, none, none⟩⟩],
        ("alphafoldserver".toList), 1⟩,
      ⟨("design_T0.1_sample2".toList), [],
        [⟨⟨("ACDEFGHIKLMNPQRSTVWY".toList), 1, none, none⟩⟩],
        ("alphafoldserver".toList), 1⟩] :=
  ⟨⟨by decide, by decide⟩,
    C1_end_to_end _ _ _ ⟨by decide, by decide⟩ ⟨by decide, by decide⟩
      ⟨by decide, by decide⟩⟩

/-! ### Idempotence of normalization (C7) -/

theorem char_interval_facts :
    ∀ m : Nat, 97 ≤ m → m ≤ 122 →
      pyUpper (Char.ofNat (m - 32)) = Char.ofNat (m - 32) ∧
      isPySpace (Char.ofNat (m - 32)) = false := by
  intro m hm1 hm2
  interval_cases m <;> exact ⟨by decide, by decide⟩

theorem pyUpper_idem (c : Char) : pyUpper (pyUpper c) = pyUpper c := by
  by_cases h : 97 ≤ c.toNat ∧ c.toNat ≤ 122
  · have hc : pyUpper c = Char.ofNat (c.toNat - 32) := if_pos h
    rw [hc]
    exact (char_interval_facts c.toNat h.1 h.2).1
  · have hc : pyUpper c = c := if_neg h
    rw [hc, hc]

theorem pyUpper_not_space {c : Char} (h : isPySpace c = false) :
    isPySpace (pyUpper c) = false := by
  by_cases hr : 97 ≤ c.toNat ∧ c.toNat ≤ 122
  · have hc : pyUpper c = Char.ofNat (c.toNat - 32) := if_pos hr
    rw [hc]
    exact (char_interval_facts c.toNat hr.1 hr.2).2
  · have hc : pyUpper c = c := if_neg hr
    rw [hc]
    exact h

theorem pyUpper_fixed_of_mem_map {l : Str} {c : Char}
    (h : c ∈ l.map pyUpper) : pyUpper c = c := by
  rcases List.mem_map.mp h with ⟨d, _, rfl⟩
  exact pyUpper_idem d

theorem not_space_char_facts {c : Char} (h : isPySpace c = false) :
    decide (c ≠ ' ') = true ∧ decide (c ≠ '\t') = true ∧
      decide (c ≠ '\r') = true ∧ decide (c ≠ '\n') = true := by
  refine ⟨?_, ?_, ?_, ?_⟩ <;>
    · simp only [decide_eq_true_eq]
      rintro rfl
      exact absurd h (by decide)

theorem head?_dropWhile_not {α : Type} {p : α → Bool} {l : List α} {c : α}
    (h : (l.dropWhile p).head? = some c) : p c = false := by
  induction l with
  | nil => simp [List.dropWhile] at h
  | cons a t ih =>
    rw [List.dropWhile_cons] at h
    split at h
    · exact ih h
    · rename_i hpa
      rw [List.head?_cons] at h
      cases Option.some.inj h
      exact Bool.eq_false_iff.mpr hpa

theorem getLast?_dropWhile {α : Type} {p : α → Bool} {l : List α} {c : α}
    (h : (l.dropWhile p).getLast? = some c) : l.getLast? = some c := by
  induction l with
  | nil => simp [List.dropWhile] at h
  | cons a t ih =>
    rw [List.dropWhile_cons] at h
    split at h
    · have ht := ih h
      have htne : t ≠ [] := by
        intro h0
        rw [h0] at ht
        simp at ht
      rw [List.getLast?_cons, ht]
      rfl
    · exact h

theorem pyStrip_head_not_space {l : Str} {c : Char}
    (h : (pyStrip l).head? = some c) : isPySpace c = false := by
  unfold pyStrip stripAround at h
  rw [List.head?_reverse] at h
  have h2 := getLast?_dropWhile h
  rw [List.getLast?_reverse] at h2
  exact head?_dropWhile_not h2

theorem pyStrip_getLast_not_space {l : Str} {c : Char}
    (h : (pyStrip l).getLast? = some c) : isPySpace c = false := by
  unfold pyStrip stripAround at h
  rw [List.getLast?_reverse] at h
  exact head?_dropWhile_not h

theorem head?_filter_of_pass {p : Char → Bool} {l : Str} {c : Char}
    (h : l.head? = some c) (hp : p c = true) : (l.filter p).head? = some c := by
  cases l with
  | nil => simp at h
  | cons a t =>
    rw [List.head?_cons] at h
    cases Option.some.inj h
    rw [List.filter_cons_of_pos hp]
    rfl

theorem getLast?_filter_of_pass {p : Char → Bool} {l : Str} {c : Char}
    (h : l.getLast? = some c) (hp : p c = true) :
    (l.filter p).getLast? = some c := by
  rw [← List.head?_reverse] at h
  have h2 := head?_filter_of_pass h hp
  rw [List.filter_reverse] at h2
  rw [← List.head?_reverse]
  exact h2

theorem cleanSeq_chars {s : Str} {c : Char} (h : c ∈ cleanSeq s) :
    pyUpper c = c ∧ decide (c ≠ ' ') = true ∧ decide (c ≠ '\t') = true ∧
      decide (c ≠ '\r') = true ∧ decide (c ≠ '\n') = true := by
  unfold cleanSeq cleanStage1 at h
  have h4 := List.mem_filter.mp h
  have h3 := List.mem_filter.mp h4.1
  have h2 := List.mem_filter.mp h3.1
  have h1 := List.mem_filter.mp h2.1
  exact ⟨pyUpper_fixed_of_mem_map h1.1, h1.2, h2.2, h3.2, h4.2⟩

theorem cleanSeq_head_spec {s : Str} {a : Char} {u : Str}
    (h : pyStrip s = a :: u) : ∃ v, cleanSeq s = pyUpper a :: v := by
  have hna : isPySpace a = false := by
    have h0 : (pyStrip s).head? = some a := by rw [h]; rfl
    exact pyStrip_head_not_space h0
  obtain ⟨f1, f2, f3, f4⟩ := not_space_char_facts (pyUpper_not_space hna)
  refine ⟨((((u.map pyUpper).filter (fun c => decide (c ≠ ' '))).filter
    (fun c => decide (c ≠ '\t'))).filter (fun c => decide (c ≠ '\r'))).filter
    (fun c => decide (c ≠ '\n')), ?_⟩
  unfold cleanSeq cleanStage1
  rw [h, List.map_cons, List.filter_cons, if_pos f1, List.filter_cons,
    if_pos f2, List.filter_cons, if_pos f3, List.filter_cons, if_pos f4]

theorem cleanStage1_of_strip_nil {s : Str} (h : pyStrip s = []) :
    cleanStage1 s = [] := by
  unfold cleanStage1
  rw [h]
  rfl

theorem cleanSeq_ne_nil {s : Str} (h : cleanStage1 s ≠ []) :
    cleanSeq s ≠ [] := by
  cases hs : pyStrip s with
  | nil => exact absurd (cleanStage1_of_strip_nil hs) h
  | cons a u =>
    obtain ⟨v, hv⟩ := cleanSeq_head_spec hs
    rw [hv]
    simp

theorem cleanSeq_head_not_space {s : Str} {c : Char}
    (h : (cleanSeq s).head? = some c) : isPySpace c = false := by
  cases hs : pyStrip s with
  | nil =>
    have : cleanSeq s = [] := by
      unfold cleanSeq
      rw [cleanStage1_of_strip_nil hs]
      rfl
    rw [this] at h
    simp at h
  | cons a u =>
    obtain ⟨v, hv⟩ := cleanSeq_head_spec hs
    rw [hv, List.head?_cons] at h
    cases Option.some.inj h
    exact pyUpper_not_space (pyStrip_head_not_space (by rw [hs]; rfl))

theorem cleanSeq_getLast_not_space {s : Str} {c : Char}
    (h : (cleanSeq s).getLast? = some c) : isPySpace c = false := by
  cases hb : (pyStrip s).getLast? with
  | none =>
    have hnil : pyStrip s = [] := List.getLast?_eq_none_iff.mp hb
    have : cleanSeq s = [] := by
      unfold cleanSeq
      rw [cleanStage1_of_strip_nil hnil]
      rfl
    rw [this] at h
    simp at h
  | some b =>
    have hnb : isPySpace b = false := pyStrip_getLast_not_space hb
    obtain ⟨f1, f2, f3, f4⟩ := not_space_char_facts (pyUpper_not_space hnb)
    have hmap : ((pyStrip s).map pyUpper).getLast? = some (pyUpper b) := by
      rw [List.getLast?_map, hb]
      rfl
    have hlast : (cleanSeq s).getLast? = some (pyUpper b) := by
      unfold cleanSeq cleanStage1
      exact getLast?_filter_of_pass (getLast?_filter_of_pass
        (getLast?_filter_of_pass (getLast?_filter_of_pass hmap f1) f2) f3) f4
    rw [hlast] at h
    cases Option.some.inj h
    exact pyUpper_not_space hnb

theorem dropWhile_eq_self_of_head_not {p : Char → Bool} {l : Str}
    (h : ∀ c, l.head? = some c → p c = false) : l.dropWhile p = l := by
  cases l with
  | nil => rfl
  | cons a t =>
    have := h a rfl
    simp [List.dropWhile_cons, this]

theorem cleanSeq_fixed (s : Str) :
    cleanStage1 (cleanSeq s) = cleanSeq s ∧
      cleanSeq (cleanSeq s) = cleanSeq s := by
  have hstrip : pyStrip (cleanSeq s) = cleanSeq s := by
    unfold pyStrip stripAround
    rw [dropWhile_eq_self_of_head_not (fun c hc => cleanSeq_head_not_space hc)]
    rw [dropWhile_eq_self_of_head_not (fun c hc => by
      rw [List.head?_reverse] at hc
      exact cleanSeq_getLast_not_space hc)]
    exact List.reverse_reverse _
  have hmap : (cleanSeq s).map pyUpper = cleanSeq s :=
    map_eq_self_of (fun c hc => (cleanSeq_chars hc).1)
  have hf1 : (cleanSeq s).filter (fun c => decide (c ≠ ' ')) = cleanSeq s :=
    List.filter_eq_self.mpr (fun c hc => (cleanSeq_chars hc).2.1)
  have hf2 : (cleanSeq s).filter (fun c => decide (c ≠ '\t')) = cleanSeq s :=
    List.filter_eq_self.mpr (fun c hc => (cleanSeq_chars hc).2.2.1)
  have hf3 : (cleanSeq s).filter (fun c => decide (c ≠ '\r')) = cleanSeq s :=
    List.filter_eq_self.mpr (fun c hc => (cleanSeq_chars hc).2.2.2.1)
  have hf4 : (cleanSeq s).filter (fun c => decide (c ≠ '\n')) = cleanSeq s :=
    List.filter_eq_self.mpr (fun c hc => (cleanSeq_chars hc).2.2.2.2)
  have hstage1 : cleanStage1 (cleanSeq s) = cleanSeq s := by
    unfold cleanStage1
    rw [hstrip, hmap, hf1, hf2]
  refine ⟨hstage1, ?_⟩
  have hstep : cleanSeq (cleanSeq s) =
      ((cleanStage1 (cleanSeq s)).filter (fun c => decide (c ≠ '\r'))).filter
        (fun c => decide (c ≠ '\n')) := rfl
  rw [hstep, hstage1, hf3, hf4]

theorem normalize_ok_elim {s t : Str} {strict : Bool}
    (h : normalize_and_validate_sequence s strict = .ok t) :
    t = cleanSeq s ∧ cleanStage1 s ≠ [] ∧
      (strict = true →
        (cleanSeq s).filter (fun c => decide (c ∉ AA20)) = []) := by
  unfold normalize_and_validate_sequence at h
  by_cases h1 : cleanStage1 s = []
  · rw [if_pos h1] at h
    simp at h
  · rw [if_neg h1] at h
    cases strict with
    | false =>
      rw [if_neg (by simp)] at h
      exact ⟨(Except.ok.inj h).symm, h1, by simp⟩
    | true =>
      rw [if_pos rfl] at h
      have h2 : (if sortedDedup ((cleanSeq s).filter
            (fun c => decide (c ∉ AA20))) = []
          then Except.ok (cleanSeq s)
          else Except.error (Err.invalidAlphabet (sortedDedup
            ((cleanSeq s).filter (fun c => decide (c ∉ AA20)))))) =
          Except.ok t := h
      by_cases h3 : sortedDedup ((cleanSeq s).filter
          (fun c => decide (c ∉ AA20))) = []
      · rw [if_pos h3] at h2
        have h4 : (cleanSeq s).filter (fun c => decide (c ∉ AA20)) = [] := by
          by_contra h5
          exact absurd h3 (sortedDedup_ne_nil h5)
        exact ⟨(Except.ok.inj h2).symm, h1, fun _ => h4⟩
      · rw [if_neg h3] at h2
        simp at h2

/-- C7: normalization is idempotent: re-normalizing any successful result
returns it unchanged, so in the error monad
`normalize (normalize s) = normalize s`; in particular an
already-normalized 20-letter sequence passes through unchanged. -/
theorem C7_normalize_idempotent (strict : Bool) (s : Str) :
    (normalize_and_validate_sequence s strict).bind
      (fun t => normalize_and_validate_sequence t strict) =
    normalize_and_validate_sequence s strict := by
  cases h : normalize_and_validate_sequence s strict with
  | error e => rfl
  | ok t =>
    show normalize_and_validate_sequence t strict = .ok t
    obtain ⟨rfl, hne, hstrictf⟩ := normalize_ok_elim h
    obtain ⟨hstage1t, hcleant⟩ := cleanSeq_fixed s
    have htne : cleanSeq s ≠ [] := cleanSeq_ne_nil hne
    unfold normalize_and_validate_sequence
    rw [hstage1t, if_neg htne]
    cases strict with
    | false =>
      rw [if_neg (by simp), hcleant]
    | true =>
      rw [if_pos rfl]
      simp only [hcleant]
      rw [hstrictf rfl]
      rfl

/-! ### Parsing refinement (C8, C9) -/

theorem strippedLines_nil : strippedLines [] = [] := rfl

theorem strippedLines_cons_nil {raw : Str} {rest : List Str}
    (h : pyStrip raw = []) :
    strippedLines (raw :: rest) = strippedLines rest := by
  unfold strippedLines
  rw [List.map_cons, List.filter_cons, if_neg (by simp [h])]

theorem strippedLines_cons_ne {raw : Str} {rest : List Str}
    (h : pyStrip raw ≠ []) :
    strippedLines (raw :: rest) = pyStrip raw :: strippedLines rest := by
  unfold strippedLines
  rw [List.map_cons, List.filter_cons, if_pos (by simp [h])]

theorem specRecords_cons_of_header {l : Str} {rest : List Str}
    (h : isHeaderS l = true) :
    specRecords (l :: rest) =
      (specHeaderText l, specJoin (rest.takeWhile (fun x => !(isHeaderS x)))) ::
        specRecords rest := by
  simp [specRecords, h]

theorem specRecords_cons_of_nonheader {l : Str} {rest : List Str}
    (h : isHeaderS l = false) :
    specRecords (l :: rest) = specRecords rest := by
  simp [specRecords, h]

theorem specJoin_nil : specJoin [] = [] := rfl

theorem specJoin_cons {l : Str} {rest : List Str} :
    specJoin (l :: rest) = specClean l ++ specJoin rest := by
  simp [specJoin]

theorem parseLoop_some_eq (raws : List Str) :
    ∀ (h : Str) (acc : List Str),
      parseLoop (some h) acc raws =
        (h, acc.flatten ++ specJoin ((strippedLines raws).takeWhile
          (fun x => !(isHeaderS x)))) :: specRecords (strippedLines raws) := by
  induction raws with
  | nil =>
    intro h acc
    simp [parseLoop, strippedLines_nil, specJoin_nil, specRecords]
  | cons raw rest ih =>
    intro h acc
    simp only [parseLoop]
    by_cases h1 : pyStrip raw = []
    · rw [if_pos h1, strippedLines_cons_nil h1, ih]
    · rw [if_neg h1, strippedLines_cons_ne h1]
      by_cases h2 : (pyStrip raw).head? = some '>'
      · have hh : isHeaderS (pyStrip raw) = true := by
          simp [isHeaderS, h2]
        rw [if_pos h2, ih, specRecords_cons_of_header hh,
          List.takeWhile_cons_of_neg (by simp [hh])]
        simp [specHeaderText, specJoin_nil]
      · have hh : isHeaderS (pyStrip raw) = false := by
          simp [isHeaderS, h2]
        rw [if_neg h2, ih, specRecords_cons_of_nonheader hh,
          List.takeWhile_cons_of_pos (by simp [hh]), specJoin_cons]
        simp [specClean, List.flatten_append]

theorem parseLoop_none_eq (raws : List Str) :
    ∀ acc : List Str,
      parseLoop none acc raws = specRecords (strippedLines raws) := by
  induction raws with
  | nil =>
    intro acc
    simp [parseLoop, strippedLines_nil, specRecords]
  | cons raw rest ih =>
    intro acc
    simp only [parseLoop]
    by_cases h1 : pyStrip raw = []
    · rw [if_pos h1, strippedLines_cons_nil h1, ih]
    · rw [if_neg h1, strippedLines_cons_ne h1]
      by_cases h2 : (pyStrip raw).head? = some '>'
      · have hh : isHeaderS (pyStrip raw) = true := by
          simp [isHeaderS, h2]
        rw [if_pos h2, parseLoop_some_eq, specRecords_cons_of_header hh]
        simp [specHeaderText]
      · have hh : isHeaderS (pyStrip raw) = false := by
          simp [isHeaderS, h2]
        rw [if_neg h2, ih, specRecords_cons_of_nonheader hh]

theorem specRecords_eq_nil {xs : List Str}
    (h : ∀ l ∈ xs, isHeaderS l = false) : specRecords xs = [] := by
  induction xs with
  | nil => rfl
  | cons l rest ih =>
    rw [specRecords_cons_of_nonheader (h l (List.mem_cons_self l rest))]
    exact ih (fun x hx => h x (List.mem_cons_of_mem l hx))

theorem specRecords_ne_nil {xs : List Str} {l : Str} (hmem : l ∈ xs)
    (h : isHeaderS l = true) : specRecords xs ≠ [] := by
  induction xs with
  | nil => simp at hmem
  | cons x rest ih =>
    by_cases hx : isHeaderS x = true
    · rw [specRecords_cons_of_header hx]
      simp
    · rcases List.mem_cons.mp hmem with rfl | h2
      · exact absurd h hx
      · rw [specRecords_cons_of_nonheader (Bool.eq_false_iff.mpr hx)]
        exact ih h2

theorem header_mem_strippedLines {lines : List Str} {raw : Str}
    (hmem : raw ∈ lines) (h : isHeaderS (pyStrip raw) = true) :
    pyStrip raw ∈ strippedLines lines := by
  unfold strippedLines
  rw [List.mem_filter]
  refine ⟨List.mem_map.mpr ⟨raw, hmem, rfl⟩, ?_⟩
  simp only [decide_eq_true_eq]
  intro h0
  rw [h0] at h
  simp [isHeaderS] at h

theorem parse_fasta_ok {path : Str} {lines : List Str}
    (h : ∃ raw ∈ lines, isHeaderS (pyStrip raw) = true) :
    parse_fasta path lines = .ok (specRecords (strippedLines lines)) := by
  obtain ⟨raw, hmem, hraw⟩ := h
  unfold parse_fasta
  rw [parseLoop_none_eq]
  rw [if_neg (specRecords_ne_nil (header_mem_strippedLines hmem hraw) hraw)]

theorem parse_fasta_err {path : Str} {lines : List Str}
    (h : ∀ raw ∈ lines, isHeaderS (pyStrip raw) = false) :
    parse_fasta path lines = .error (.parseError path) := by
  unfold parse_fasta
  rw [parseLoop_none_eq]
  have hnil : specRecords (strippedLines lines) = [] := by
    refine specRecords_eq_nil ?_
    intro l hl
    unfold strippedLines at hl
    obtain ⟨hl2, _⟩ := List.mem_filter.mp hl
    obtain ⟨raw, hraw, rfl⟩ := List.mem_map.mp hl2
    exact h raw hraw
  rw [if_pos hnil]

/-- C8: an input with no header line (in particular an empty file or one
of blank lines only) fails with a `ParseError` naming the source path; an
input with at least one header line parses successfully into the
specification-level record list: one record per header line, in input
order, with wrapped sequence lines concatenated and interior spaces and
tabs removed. -/
theorem C8_parse_records (path : Str) (lines : List Str) :
    ((∀ raw ∈ lines, isHeaderS (pyStrip raw) = false) →
      parse_fasta path lines = .error (.parseError path)) ∧
    ((∃ raw ∈ lines, isHeaderS (pyStrip raw) = true) →
      parse_fasta path lines = .ok (specRecords (strippedLines lines))) :=
  ⟨parse_fasta_err, parse_fasta_ok⟩

/-- C8 witness at concrete inputs: a two-record file with a wrapped,
space-laden sequence parses to the cleaned records, and a file with no
header line fails with a `ParseError` carrying the path. -/
theorem C8_parse_records_witness :
    parse_fasta ("in.fa".toList) [(">a b".toList), ("AC G".toList),
      ("DEF".toList), (">x".toList), ("GH".toList)] =
      .ok [(("a b".toList), ("ACGDEF".toList)), (("x".toList), ("GH".toList))] ∧
    parse_fasta ("in.fa".toList) [("".toList), ("  ".toList)] =
      .error (.parseError ("in.fa".toList)) := by
  constructor
  · have h := (C8_parse_records ("in.fa".toList) [(">a b".toList),
      ("AC G".toList), ("DEF".toList), (">x".toList), ("GH".toList)]).2
      ⟨(">a b".toList), by decide, by decide⟩
    rw [h]
    rfl
  · exact (C8_parse_records ("in.fa".toList)
      [("".toList), ("  ".toList)]).1 (by decide)

theorem strippedLines_append (a b : List Str) :
    strippedLines (a ++ b) = strippedLines a ++ strippedLines b := by
  unfold strippedLines
  rw [List.map_append, List.filter_append]

theorem header_strip_ne_nil {l : Str} (h : isHeaderS l = true) : l ≠ [] := by
  intro h0
  rw [h0] at h
  simp [isHeaderS] at h

theorem mem_specRecords_append {zs : List Str} {hl : Str} {rest : List Str}
    (h : isHeaderS hl = true) :
    (specHeaderText hl,
      specJoin (rest.takeWhile (fun x => !(isHeaderS x)))) ∈
      specRecords (zs ++ hl :: rest) := by
  induction zs with
  | nil =>
    rw [List.nil_append, specRecords_cons_of_header h]
    exact List.mem_cons_self _ _
  | cons z zs' ih =>
    rw [List.cons_append]
    by_cases hz : isHeaderS z = true
    · rw [specRecords_cons_of_header hz]
      exact List.mem_cons_of_mem _ ih
    · rw [specRecords_cons_of_nonheader (Bool.eq_false_iff.mpr hz)]
      exact ih

/-- C9 (implicit): a header line immediately followed by another header
line or by the end of file still parses successfully and yields a record
with the empty sequence; the empty-sequence condition errors only in
normalization, never at parse time. -/
theorem C9_empty_record (path : Str) (xs ys : List Str) (h : Str)
    (hh : isHeaderS (pyStrip h) = true)
    (hys : ys = [] ∨ ∃ y ys2, ys = y :: ys2 ∧ isHeaderS (pyStrip y) = true) :
    (∃ recs, parse_fasta path (xs ++ h :: ys) = .ok recs ∧
      (specHeaderText (pyStrip h), ([] : Str)) ∈ recs) ∧
    (∀ b, normalize_and_validate_sequence [] b = .error .emptySequence) := by
  constructor
  · have hok : parse_fasta path (xs ++ h :: ys) =
        .ok (specRecords (strippedLines (xs ++ h :: ys))) :=
      parse_fasta_ok ⟨h, by simp, hh⟩
    refine ⟨_, hok, ?_⟩
    rw [strippedLines_append, strippedLines_cons_ne (header_strip_ne_nil hh)]
    have htw : (strippedLines ys).takeWhile (fun x => !(isHeaderS x)) = [] := by
      rcases hys with rfl | ⟨y, ys2, rfl, hy⟩
      · rw [strippedLines_nil]
        rfl
      · rw [strippedLines_cons_ne (header_strip_ne_nil hy)]
        exact List.takeWhile_cons_of_neg (by simp [hy])
    have hmem := @mem_specRecords_append (strippedLines xs) (pyStrip h)
      (strippedLines ys) hh
    rw [htw, specJoin_nil] at hmem
    exact hmem
  · intro b
    rfl

/-- C9 witness at a concrete input: a header with no sequence lines
between it and the next header yields an empty-sequence record, and
normalizing the empty sequence fails with the empty-sequence error. -/
theorem C9_empty_record_witness :
    (∃ recs, parse_fasta ("p".toList)
        [(">a".toList), ("AC".toList), (">empty".toList), (">b".toList),
          ("DE".toList)] = .ok recs ∧
      (("empty".toList), ([] : Str)) ∈ recs) ∧
    (∀ b, normalize_and_validate_sequence [] b = .error .emptySequence) := by
  have h := C9_empty_record ("p".toList) [(">a".toList), ("AC".toList)]
    [(">b".toList), ("DE".toList)] (">empty".toList) (by decide)
    (Or.inr ⟨(">b".toList), [("DE".toList)], rfl, by decide⟩)
  constructor
  · obtain ⟨recs, hok, hmem⟩ := h.1
    exact ⟨recs, hok, by
      have : specHeaderText (pyStrip (">empty".toList)) = ("empty".toList) := by
        decide
      rw [← this]
      exact hmem⟩
  · exact h.2

/-! ### Header marker analysis (C2) -/

theorem takeWhile_mem_imp {α : Type} {p : α → Bool} {l : List α} {c : α}
    (h : c ∈ l.takeWhile p) : p c = true := by
  induction l with
  | nil => simp [List.takeWhile] at h
  | cons a t ih =>
    rw [List.takeWhile_cons] at h
    split at h
    · rcases List.mem_cons.mp h with rfl | h2
      · assumption
      · exact ih h2
    · simp at h

theorem isPySpace_eq_true_elim {c : Char} (h : isPySpace c = true) :
    c = ' ' ∨ c = '\t' ∨ c = '\n' ∨ c = '\r' ∨ c = '\x0b' ∨ c = '\x0c' := by
  simp [isPySpace] at h
  tauto

theorem isDigit_not_space {c : Char} (h : Char.isDigit c = true) :
    isPySpace c = false := by
  cases hsp : isPySpace c with
  | false => rfl
  | true =>
    rcases isPySpace_eq_true_elim hsp with rfl|rfl|rfl|rfl|rfl|rfl <;>
      exact absurd h (by decide)

theorem isNumDot_not_space {c : Char} (h : isNumDot c = true) :
    isPySpace c = false := by
  have h2 : Char.isDigit c = true ∨ c = '.' := by
    simpa [isNumDot] using h
  rcases h2 with h2 | rfl
  · exact isDigit_not_space h2
  · rfl

theorem matchKeyAt_some {key : Str} {cls : Char → Bool} {l g : Str}
    (h : matchKeyAt key cls l = some g) :
    ∃ w1 w2 post, allOf isPySpace w1 ∧ allOf isPySpace w2 ∧ g ≠ [] ∧
      allOf cls g ∧ l = key ++ (w1 ++ '=' :: (w2 ++ (g ++ post))) := by
  unfold matchKeyAt at h
  by_cases h1 : l.take key.length = key
  · rw [if_pos h1] at h
    cases hdw : (l.drop key.length).dropWhile isPySpace with
    | nil => rw [hdw] at h; simp at h
    | cons d r2 =>
      rw [hdw] at h
      have h2 : (if d = '=' then
          (if (r2.dropWhile isPySpace).takeWhile cls = [] then none
           else some ((r2.dropWhile isPySpace).takeWhile cls))
          else none) = some g := h
      by_cases hd : d = '='
      · rw [if_pos hd] at h2
        subst hd
        by_cases hnum : (r2.dropWhile isPySpace).takeWhile cls = []
        · rw [if_pos hnum] at h2
          simp at h2
        · rw [if_neg hnum] at h2
          have hg : g = (r2.dropWhile isPySpace).takeWhile cls :=
            (Option.some.inj h2).symm
          refine ⟨(l.drop key.length).takeWhile isPySpace,
            r2.takeWhile isPySpace, (r2.dropWhile isPySpace).dropWhile cls,
            ?_, ?_, ?_, ?_, ?_⟩
          · exact fun c hc => takeWhile_mem_imp hc
          · exact fun c hc => takeWhile_mem_imp hc
          · rw [hg]; exact hnum
          · intro c hc; rw [hg] at hc; exact takeWhile_mem_imp hc
          · have s1 := (List.take_append_drop (List.length key) l).symm
            rw [h1] at s1
            have s2 := (List.takeWhile_append_dropWhile isPySpace
              (List.drop (List.length key) l)).symm
            rw [hdw] at s2
            rw [s2] at s1
            have s3 := (List.takeWhile_append_dropWhile isPySpace r2).symm
            rw [s3] at s1
            have s4 := (List.takeWhile_append_dropWhile cls
              (List.dropWhile isPySpace r2)).symm
            rw [s4] at s1
            rw [hg]
            exact s1
      · rw [if_neg hd] at h2
        simp at h2
  · rw [if_neg h1] at h
    simp at h

theorem matchKeyAt_complete {key : Str} {cls : Char → Bool}
    (w1 w2 num post : Str)
    (hcl : ∀ c, cls c = true → isPySpace c = false)
    (hw1 : allOf isPySpace w1) (hw2 : allOf isPySpace w2)
    (hnum : num ≠ []) (hcls : allOf cls num) :
    (matchKeyAt key cls (key ++ (w1 ++ '=' :: (w2 ++ (num ++ post))))).isSome =
      true := by
  unfold matchKeyAt
  rw [List.take_left, if_pos rfl, List.drop_left]
  rw [List.dropWhile_append_of_pos hw1,
    List.dropWhile_cons_of_neg (by decide)]
  cases num with
  | nil => exact absurd rfl hnum
  | cons n0 nrest =>
    have hn0 : cls n0 = true := hcls n0 (List.mem_cons_self _ _)
    have hn0sp : isPySpace n0 = false := hcl n0 hn0
    have hd : ((w2 ++ (n0 :: nrest ++ post)).dropWhile isPySpace) =
        n0 :: (nrest ++ post) := by
      rw [List.dropWhile_append_of_pos hw2]
      rw [List.cons_append, List.dropWhile_cons_of_neg (by simp [hn0sp])]
    have hred : (if ('=' : Char) = '=' then
        (if (((w2 ++ (n0 :: nrest ++ post)).dropWhile isPySpace).takeWhile
            cls = [])
          then none
          else some (((w2 ++ (n0 :: nrest ++ post)).dropWhile
            isPySpace).takeWhile cls))
        else none) =
        (match ('=' :: (w2 ++ (n0 :: nrest ++ post)) : Str) with
        | d :: r2 =>
          if d = '=' then
            (if (r2.dropWhile isPySpace).takeWhile cls = [] then none
             else some ((r2.dropWhile isPySpace).takeWhile cls))
          else none
        | [] => none) := rfl
    rw [← hred, if_pos rfl, hd]
    rw [List.takeWhile_cons_of_pos hn0]
    simp

theorem searchPat_sound {m : Str → Option Str} {l g : Str}
    (h : searchPat m l = some g) :
    ∃ pre rest, l = pre ++ rest ∧ m rest = some g := by
  induction l with
  | nil => simp [searchPat] at h
  | cons c rest ih =>
    simp only [searchPat] at h
    cases hm : m (c :: rest) with
    | some g2 =>
      rw [hm] at h
      exact ⟨[], c :: rest, rfl, hm.trans h⟩
    | none =>
      rw [hm] at h
      obtain ⟨pre, rest2, heq, hm2⟩ := ih h
      exact ⟨c :: pre, rest2, by rw [List.cons_append, ← heq], hm2⟩

theorem searchPat_complete {m : Str → Option Str} (pre : List Char)
    {x : Char} {rest : Str} (h : (m (x :: rest)).isSome = true) :
    (searchPat m (pre ++ x :: rest)).isSome = true := by
  induction pre with
  | nil =>
    rw [List.nil_append]
    simp only [searchPat]
    cases hm : m (x :: rest) with
    | some g => simp
    | none => rw [hm] at h; simp at h
  | cons c pre' ih =>
    rw [List.cons_append]
    simp only [searchPat]
    cases hm : m (c :: (pre' ++ x :: rest)) with
    | some g => simp
    | none => exact ih

theorem searchT_isSome_iff (header : Str) :
    (searchPat matchTAt header).isSome = true ↔ hasTMarker header := by
  constructor
  · intro h
    obtain ⟨g, hg⟩ := Option.isSome_iff_exists.mp h
    obtain ⟨pre, rest, rfl, hm⟩ := searchPat_sound hg
    obtain ⟨w1, w2, post, hw1, hw2, hne, hcls, heq⟩ := matchKeyAt_some hm
    exact ⟨pre, w1, w2, g, post, hw1, hw2, hne, hcls, by rw [heq]; rfl⟩
  · rintro ⟨pre, w1, w2, num, post, hw1, hw2, hne, hcls, rfl⟩
    have hcm := @matchKeyAt_complete ("T".toList) isNumDot w1 w2 num post
      (fun c hc => isNumDot_not_space hc) hw1 hw2 hne hcls
    exact searchPat_complete pre hcm

theorem searchSample_isSome_iff (header : Str) :
    (searchPat matchSampleAt header).isSome = true ↔
      hasSampleMarker header := by
  constructor
  · intro h
    obtain ⟨g, hg⟩ := Option.isSome_iff_exists.mp h
    obtain ⟨pre, rest, rfl, hm⟩ := searchPat_sound hg
    obtain ⟨w1, w2, post, hw1, hw2, hne, hcls, heq⟩ := matchKeyAt_some hm
    exact ⟨pre, w1, w2, g, post, hw1, hw2, hne, hcls, by rw [heq]⟩
  · rintro ⟨pre, w1, w2, num, post, hw1, hw2, hne, hcls, rfl⟩
    have hcm := @matchKeyAt_complete ("sample".toList) Char.isDigit w1 w2 num
      post (fun c hc => isDigit_not_space hc) hw1 hw2 hne hcls
    have hsplit : (("sample".toList) ++ (w1 ++ '=' :: (w2 ++ (num ++ post)))
        : Str) = 's' :: ("ample".toList ++ (w1 ++ '=' :: (w2 ++ (num ++ post)))) :=
      rfl
    rw [hsplit] at hcm ⊢
    exact searchPat_complete pre hcm

theorem searchPat_eq_none_of_not {m : Str → Option Str} {l : Str}
    (h : ¬ (searchPat m l).isSome = true) : searchPat m l = none := by
  cases hs : searchPat m l with
  | none => rfl
  | some g => rw [hs] at h; simp at h

theorem comma_split (l : Str) :
    (',' ∉ l ∧ l.takeWhile (fun c => decide (c ≠ ',')) = l) ∨
    (∃ a b, l = a ++ ',' :: b ∧ ',' ∉ a ∧
      l.takeWhile (fun c => decide (c ≠ ',')) = a) := by
  induction l with
  | nil => left; simp
  | cons c rest ih =>
    by_cases hc : c = ','
    · subst hc
      right
      exact ⟨[], rest, rfl, by simp, by
        rw [List.takeWhile_cons_of_neg (by simp)]⟩
    · rcases ih with ⟨h1, h2⟩ | ⟨a, b, heq, hna, htw⟩
      · left
        refine ⟨?_, ?_⟩
        · intro hmem
          rcases List.mem_cons.mp hmem with h3 | h3
          · exact hc h3.symm
          · exact h1 h3
        · rw [List.takeWhile_cons_of_pos (by simp [hc]), h2]
      · right
        refine ⟨c :: a, b, by rw [heq]; rfl, ?_, ?_⟩
        · intro hmem
          rcases List.mem_cons.mp hmem with h3 | h3
          · exact hc h3.symm
          · exact hna h3
        · rw [List.takeWhile_cons_of_pos (by simp [hc]), htw]

/-- C2 (amended): header-mode suffix derivation, with the `T=` and
`sample=` markers matched case-sensitively (a lowercase `t=` or an
uppercase `SAMPLE=` is not recognised, unlike the claim's
case-insensitive reading).  When both markers are present the suffix is
`T<number>_sample<integer>` built from the leftmost matched texts; when
only a sample marker is present it is `sample<integer>`; otherwise it is
the header text before the first comma, stripped (the whole header when
no comma occurs). -/
theorem C2_derive_suffix (header : Str) :
    (hasTMarker header → hasSampleMarker header →
      ∃ t s, searchPat matchTAt header = some t ∧
        searchPat matchSampleAt header = some s ∧
        t ≠ [] ∧ allOf isNumDot t ∧ s ≠ [] ∧ allOf Char.isDigit s ∧
        derive_suffix_from_mpnn_header header =
          ("T".toList) ++ t ++ ("_sample".toList) ++ s) ∧
    (¬ hasTMarker header → hasSampleMarker header →
      ∃ s, searchPat matchSampleAt header = some s ∧ s ≠ [] ∧
        allOf Char.isDigit s ∧
        derive_suffix_from_mpnn_header header = ("sample".toList) ++ s) ∧
    (¬ hasSampleMarker header →
      ((',' ∉ header ∧
          derive_suffix_from_mpnn_header header = pyStrip header) ∨
        (∃ a b, header = a ++ ',' :: b ∧ ',' ∉ a ∧
          derive_suffix_from_mpnn_header header = pyStrip a))) := by
  refine ⟨?_, ?_, ?_⟩
  · intro hT hS
    have hTs := (searchT_isSome_iff header).mpr hT
    have hSs := (searchSample_isSome_iff header).mpr hS
    obtain ⟨t, ht⟩ := Option.isSome_iff_exists.mp hTs
    obtain ⟨s, hs⟩ := Option.isSome_iff_exists.mp hSs
    obtain ⟨preT, restT, heqT, hmT⟩ := searchPat_sound ht
    obtain ⟨w1, w2, post, _, _, htne, htcls, _⟩ := matchKeyAt_some hmT
    obtain ⟨preS, restS, heqS, hmS⟩ := searchPat_sound hs
    obtain ⟨v1, v2, post2, _, _, hsne, hscls, _⟩ := matchKeyAt_some hmS
    refine ⟨t, s, ht, hs, htne, htcls, hsne, hscls, ?_⟩
    unfold derive_suffix_from_mpnn_header
    rw [ht, hs]
  · intro hT hS
    have hTn : searchPat matchTAt header = none :=
      searchPat_eq_none_of_not (fun h => hT ((searchT_isSome_iff header).mp h))
    have hSs := (searchSample_isSome_iff header).mpr hS
    obtain ⟨s, hs⟩ := Option.isSome_iff_exists.mp hSs
    obtain ⟨preS, restS, heqS, hmS⟩ := searchPat_sound hs
    obtain ⟨v1, v2, post2, _, _, hsne, hscls, _⟩ := matchKeyAt_some hmS
    refine ⟨s, hs, hsne, hscls, ?_⟩
    unfold derive_suffix_from_mpnn_header
    rw [hTn, hs]
  · intro hS
    have hSn : searchPat matchSampleAt header = none :=
      searchPat_eq_none_of_not
        (fun h => hS ((searchSample_isSome_iff header).mp h))
    have hd : derive_suffix_from_mpnn_header header =
        pyStrip (header.takeWhile (fun c => decide (c ≠ ','))) := by
      unfold derive_suffix_from_mpnn_header
      rw [hSn]
      cases searchPat matchTAt header <;> rfl
    rcases comma_split header with ⟨h1, h2⟩ | ⟨a, b, heq, hna, htw⟩
    · left
      rw [hd, h2]
      exact ⟨h1, rfl⟩
    · right
      rw [hd, htw]
      exact ⟨a, b, heq, hna, rfl⟩

/-- C2 counterexample to the claim as stated: the header
`t=0.1, sample=5` contains a temperature marker up to letter case, so the
case-insensitive reading predicts suffix `T0.1_sample5`; the code's
pattern is case-sensitive and yields `sample5` instead. -/
theorem C2_lowercase_t_counterexample :
    derive_suffix_from_mpnn_header ("t=0.1, sample=5".toList) =
      ("sample5".toList) ∧
    ("sample5".toList) ≠ ("T0.1_sample5".toList) ∧
    hasTMarker (("t=0.1, sample=5".toList).map pyUpper) := by
  refine ⟨by decide, by decide, ?_⟩
  exact ⟨[], [], [], ("0.1".toList), (", SAMPLE=5".toList),
    by decide, by decide, by decide, by decide, by decide⟩

/-- C2 witness at a concrete header carrying both markers. -/
theorem C2_derive_suffix_witness :
    hasTMarker ("T=0.2, sample=12, score=1.23".toList) ∧
    hasSampleMarker ("T=0.2, sample=12, score=1.23".toList) ∧
    derive_suffix_from_mpnn_header ("T=0.2, sample=12, score=1.23".toList) =
      ("T0.2_sample12".toList) := by
  have hT : hasTMarker ("T=0.2, sample=12, score=1.23".toList) :=
    ⟨[], [], [], ("0.2".toList), (", sample=12, score=1.23".toList),
      by decide, by decide, by decide, by decide, by decide⟩
  have hS : hasSampleMarker ("T=0.2, sample=12, score=1.23".toList) :=
    ⟨("T=0.2, ".toList), [], [], ("12".toList), (", score=1.23".toList),
      by decide, by decide, by decide, by decide, by decide⟩
  refine ⟨hT, hS, ?_⟩
  obtain ⟨t, s, ht, hs, _, _, _, _, hd⟩ := (C2_derive_suffix _).1 hT hS
  have ht2 : searchPat matchTAt ("T=0.2, sample=12, score=1.23".toList) =
      some ("0.2".toList) := by decide
  have hs2 : searchPat matchSampleAt ("T=0.2, sample=12, score=1.23".toList) =
      some ("12".toList) := by decide
  rw [ht] at ht2
  rw [hs] at hs2
  rw [hd, Option.some.inj ht2, Option.some.inj hs2]
  rfl
